import Mathlib

/-!
Shallow embedding of `src/read_vcf.py`.

The script opens a gzip-compressed text file, iterates over its lines and
counts the lines that do not start with the character `#`.  For each counted
line it also parses the sample columns (the tab-separated fields from index 9
onward) into lists of integers; a parse failure aborts the whole run.  On
success it prints one line `SNPs read N`.

The embedding works on the decoded line stream: a file is a `List (List Char)`
(one inner list per line).  Python exceptions are modelled with `Option`:
`none` is an uncaught `ValueError` that terminates the process before the
final `print`.  Python's `int` accepts ASCII whitespace padding, one optional
sign and a non-empty digit string in which single underscores may separate
digits; that acceptance grammar is modelled by `pyIntChars`.  (The unicode
extras of CPython — non-ASCII digits and exotic whitespace — are outside the
character data the spec discusses and are not modelled.)
-/

/-- The whitespace characters stripped by Python's `str.strip` (ASCII part). -/
def isPySpace (c : Char) : Bool :=
  c = ' ' || c = '\t' || c = '\n' || c = '\r' || c = '\x0B' || c = '\x0C'

/-- Remove leading whitespace (Python `str.lstrip`). -/
def pyLstrip (cs : List Char) : List Char :=
  cs.dropWhile isPySpace

/-- Remove trailing whitespace only (Python `str.rstrip`).  This is the
operation the spec text describes for line cleanup; the source actually calls
`str.strip`, embedded below as `pyStrip`. -/
def pyRstripOnly (cs : List Char) : List Char :=
  (cs.reverse.dropWhile isPySpace).reverse

/-- Python `str.strip`: whitespace removed at both ends.  The source applies
this to every data line (`line.strip()`). -/
def pyStrip (cs : List Char) : List Char :=
  pyRstripOnly (pyLstrip cs)

/-- Split on a separator character, Python `str.split(sep)` semantics:
the empty string yields `[""]`, and empty pieces are kept. -/
def splitOnChar (sep : Char) : List Char → List (List Char)
  | [] => [[]]
  | c :: rest =>
    let r := splitOnChar sep rest
    if c = sep then [] :: r
    else
      match r with
      | f :: fs => (c :: f) :: fs
      | [] => [[c]]

/-- Scan the digit part of an integer literal, Python `int` semantics:
digits with single underscores allowed between digits, no trailing
underscore.  `us` records whether the previous character was an underscore. -/
def digitsCore (acc : Nat) (us : Bool) : List Char → Option Nat
  | [] => if us then none else some acc
  | c :: rest =>
    if c.isDigit then digitsCore (acc * 10 + (c.toNat - 48)) false rest
    else if c = '_' then
      if us then none else digitsCore acc true rest
    else none

/-- Parse a non-empty digit string (the part of a Python integer literal
after the optional sign).  The first character must be a digit. -/
def parseDigits : List Char → Option Nat
  | [] => none
  | c :: rest => if c.isDigit then digitsCore (c.toNat - 48) false rest else none

/-- Python `int(s)` on a character list: strip whitespace, read an optional
sign, then a digit string.  `none` models the `ValueError` raised on any
other input (for example `"."` or the empty string). -/
def pyIntChars (cs : List Char) : Option Int :=
  match pyStrip cs with
  | [] => none
  | c :: rest =>
    if c = '+' then (parseDigits rest).map (fun n => (n : Int))
    else if c = '-' then (parseDigits rest).map (fun n => -(n : Int))
    else (parseDigits (c :: rest)).map (fun n => (n : Int))

/-- Embeds `list(map(f, xs))` where `f` can raise: evaluates `f` on every
element in order, propagating the first failure. -/
def omap (f : α → Option β) : List α → Option (List β)
  | [] => some []
  | x :: xs =>
    match f x with
    | none => none
    | some y => (omap f xs).map (fun ys => y :: ys)

/-- The function `parse_gt` from the source:
`list(map(int, gt.split("/")))`. -/
def parse_gt (gt : List Char) : Option (List Int) :=
  omap pyIntChars (splitOnChar '/' gt)

/-- Embeds the header test `line.startswith("#")`. -/
def startsWithHash : List Char → Bool
  | [] => false
  | c :: _ => c = '#'

/-- The sample fields of a data line:
`line.strip().split("\t")[9:]` from the source. -/
def sampleFields (line : List Char) : List (List Char) :=
  (splitOnChar '\t' (pyStrip line)).drop 9

/-- Per-line genotype parsing of the source:
`list(map(parse_gt, line.strip().split("\t")[9:]))`. -/
def processLine (line : List Char) : Option (List (List Int)) :=
  omap parse_gt (sampleFields line)

/-- The main loop of the script: `acc` is the running value of `snps_read`.
Header lines are skipped; every other line is parsed (aborting on failure)
and then counted. -/
def snpsLoop : List (List Char) → Nat → Option Nat
  | [], acc => some acc
  | line :: rest, acc =>
    if startsWithHash line then snpsLoop rest acc
    else (processLine line).bind (fun _ => snpsLoop rest (acc + 1))

/-- The final value of the `snps_read` counter for a given line stream,
`none` when the run aborts. -/
def snps_read (lines : List (List Char)) : Option Nat :=
  snpsLoop lines 0

/-- The text printed to standard output:
`print(f"SNPs read ...")` runs only when the loop finished without raising,
so an aborted run prints nothing (`none`). -/
def run (lines : List (List Char)) : Option String :=
  (snps_read lines).map (fun n => "SNPs read " ++ Nat.repr n)

/-- The number of lines that do not start with `#`. -/
def countData (lines : List (List Char)) : Nat :=
  (lines.filter (fun l => !startsWithHash l)).length

-- sanity checks on concrete inputs (spec section 8 scenarios)
example : snps_read [] = some 0 := rfl
example : run [] = some ("SNPs read 0") := rfl
example : pyIntChars ['.'] = none := rfl
example : pyIntChars [] = none := rfl
example : parse_gt ['0', '/', '1'] = some [0, 1] := rfl
example : parse_gt ['-', '1', '/', '2'] = some [-1, 2] := rfl
example :
    run [['#', 'h'], ['c', '\t', '1', '/', '1']] = some ("SNPs read 1") := rfl

/-! ### Basic lemmas about the embedded operations -/

theorem omap_eq_none_iff (f : α → Option β) (l : List α) :
    omap f l = none ↔ ∃ x ∈ l, f x = none := by
  induction l with
  | nil => simp [omap]
  | cons x xs ih =>
    cases hfx : f x with
    | none => simp [omap, hfx]
    | some y => simp [omap, hfx, Option.map_eq_none', ih]

theorem omap_isSome_iff (f : α → Option β) (l : List α) :
    (omap f l).isSome = true ↔ ∀ x ∈ l, (f x).isSome = true := by
  induction l with
  | nil => simp [omap]
  | cons x xs ih =>
    cases hfx : f x with
    | none => simp [omap, hfx]
    | some y =>
      cases hxs : omap f xs with
      | none =>
        simp only [omap, hfx, hxs, Option.map_none']
        simp only [hxs, Option.isSome_none, Bool.false_eq_true, false_iff] at ih ⊢
        push_neg at ih
        obtain ⟨z, hz, hfz⟩ := ih
        intro hall
        exact hfz (hall z (List.mem_cons_of_mem _ hz))
      | some ys =>
        simp only [omap, hfx, hxs, Option.map_some', Option.isSome_some, true_iff]
        intro z hz
        rcases List.mem_cons.mp hz with rfl | hz
        · simp [hfx]
        · have := (ih.mp (by simp [hxs])) z hz
          exact this

theorem snpsLoop_eq_some (lines : List (List Char)) :
    ∀ acc n, snpsLoop lines acc = some n → n = acc + countData lines := by
  induction lines with
  | nil =>
    intro acc n h
    simp [snpsLoop] at h
    simp [countData, h]
  | cons l ls ih =>
    intro acc n h
    by_cases hl : startsWithHash l = true
    · simp only [snpsLoop, hl, if_true] at h
      have := ih acc n h
      simp [countData, List.filter_cons, hl] at this ⊢
      exact this
    · have hl' : startsWithHash l = false := by
        exact Bool.not_eq_true _ ▸ (by simpa using hl)
      simp only [snpsLoop, hl', Bool.false_eq_true, if_false] at h
      cases hp : processLine l with
      | none => simp [hp] at h
      | some v =>
        simp only [hp, Option.some_bind] at h
        have := ih (acc + 1) n h
        simp only [countData, List.filter_cons, hl', Bool.not_false, if_true,
          List.length_cons] at this ⊢
        omega

theorem snpsLoop_eq_none_iff (lines : List (List Char)) :
    ∀ acc, snpsLoop lines acc = none ↔
      ∃ line ∈ lines, startsWithHash line = false ∧ processLine line = none := by
  induction lines with
  | nil => intro acc; simp [snpsLoop]
  | cons l ls ih =>
    intro acc
    by_cases hl : startsWithHash l = true
    · simp only [snpsLoop, hl, if_true, ih, List.mem_cons]
      constructor
      · rintro ⟨x, hx, h1, h2⟩; exact ⟨x, Or.inr hx, h1, h2⟩
      · rintro ⟨x, hx, h1, h2⟩
        rcases hx with rfl | hx
        · rw [hl] at h1; cases h1
        · exact ⟨x, hx, h1, h2⟩
    · have hl' : startsWithHash l = false := by
        exact Bool.not_eq_true _ ▸ (by simpa using hl)
      cases hp : processLine l with
      | none =>
        simp only [snpsLoop, hl', Bool.false_eq_true, if_false, hp, Option.none_bind,
          List.mem_cons, true_iff]
        exact ⟨l, Or.inl rfl, hl', hp⟩
      | some v =>
        simp only [snpsLoop, hl', Bool.false_eq_true, if_false, hp, Option.some_bind,
          ih, List.mem_cons]
        constructor
        · rintro ⟨x, hx, h1, h2⟩; exact ⟨x, Or.inr hx, h1, h2⟩
        · rintro ⟨x, hx, h1, h2⟩
          rcases hx with rfl | hx
          · rw [hp] at h2; cases h2
          · exact ⟨x, hx, h1, h2⟩

/-! ### Claim theorems (first group) -/

/-- Claim C1: whenever the run succeeds (all data lines parse), the reported
count equals the number of lines that do not start with `#`, independent of
header content or position; in particular it is 0 when every line is a
header. -/
theorem count_eq_non_header_lines (lines : List (List Char)) (n : Nat)
    (h : snps_read lines = some n) : n = countData lines := by
  simpa using snpsLoop_eq_some lines 0 n h

theorem count_eq_non_header_lines_witness :
    snps_read [['#', 'a'], ['x'], ['#'], ['y', '\t', 'z']] = some 2 ∧
    2 = countData [['#', 'a'], ['x'], ['#'], ['y', '\t', 'z']] :=
  ⟨rfl, count_eq_non_header_lines [['#', 'a'], ['x'], ['#'], ['y', '\t', 'z']] 2 rfl⟩

/-- Claim C5: the header check is made on the raw line, with no characters
stripped: a line whose first character is `#` is skipped (no count, no
parse), while a line that begins with a whitespace character (followed by
anything, e.g. `#`) is processed as a data line. -/
theorem header_check_on_raw_line (line : List Char) (rest : List (List Char))
    (acc : Nat) :
    (line.head? = some '#' → snpsLoop (line :: rest) acc = snpsLoop rest acc) ∧
    (∀ c cs, isPySpace c = true → line = c :: cs →
      snpsLoop (line :: rest) acc =
        (processLine line).bind (fun _ => snpsLoop rest (acc + 1))) := by
  constructor
  · intro h
    have hh : startsWithHash line = true := by
      cases line with
      | nil => cases h
      | cons a l =>
        simp only [List.head?, Option.some.injEq] at h
        simp [startsWithHash, h]
    simp [snpsLoop, hh]
  · intro c cs hws hline
    subst hline
    have hne : c ≠ '#' := by
      intro h
      subst h
      exact absurd hws (by decide)
    have hh : startsWithHash (c :: cs) = false := by
      simp [startsWithHash, hne]
    simp [snpsLoop, hh]

theorem header_check_on_raw_line_witness :
    snpsLoop [['#', 'x']] 0 = snpsLoop [] 0 ∧
    snpsLoop [[' ', '#']] 0 =
      (processLine [' ', '#']).bind (fun _ => snpsLoop [] 1) :=
  ⟨(header_check_on_raw_line ['#', 'x'] [] 0).1 rfl,
   (header_check_on_raw_line [' ', '#'] [] 0).2 ' ' ['#'] (by decide) rfl⟩

/-- Claim C6: on success the program prints exactly the one line
`SNPs read N` with `N` the decimal counter value, and an empty input yields
`SNPs read 0`. -/
theorem output_single_line (lines : List (List Char)) (n : Nat)
    (h : snps_read lines = some n) :
    run lines = some ("SNPs read " ++ Nat.repr n) ∧
    run [] = some ("SNPs read 0") := by
  refine ⟨?_, rfl⟩
  simp [run, h]

theorem output_single_line_witness :
    snps_read [['a']] = some 1 ∧
    (run [['a']] = some ("SNPs read " ++ Nat.repr 1) ∧
      run [] = some ("SNPs read 0")) :=
  ⟨rfl, output_single_line [['a']] 1 rfl⟩

/-- Claim C7: if the loop aborts with a format error, nothing at all is
printed — no partial count is reported. -/
theorem abort_prints_nothing (lines : List (List Char))
    (h : snps_read lines = none) : run lines = none := by
  simp [run, h]

theorem abort_prints_nothing_witness :
    snps_read [('c' :: (List.replicate 9 '\t' ++ ['.']))] = none ∧
    run [('c' :: (List.replicate 9 '\t' ++ ['.']))] = none :=
  ⟨rfl, abort_prints_nothing [('c' :: (List.replicate 9 '\t' ++ ['.']))] rfl⟩

/-- Claim C9: a non-header line with at most 9 tab-separated fields — a blank
line included — undergoes no genotype parsing (the parsed list is empty),
cannot raise, and is still counted; no minimum field count is validated. -/
theorem short_line_counted (line : List Char) (rest : List (List Char))
    (acc : Nat) (h1 : startsWithHash line = false)
    (h2 : (splitOnChar '\t' (pyStrip line)).length ≤ 9) :
    processLine line = some [] ∧
    snpsLoop (line :: rest) acc = snpsLoop rest (acc + 1) := by
  have hf : sampleFields line = [] := by
    simp [sampleFields, List.drop_eq_nil_iff, h2]
  have hp : processLine line = some [] := by simp [processLine, hf, omap]
  exact ⟨hp, by simp [snpsLoop, h1, hp]⟩

theorem short_line_counted_witness :
    startsWithHash [] = false ∧
    (splitOnChar '\t' (pyStrip [])).length ≤ 9 ∧
    (processLine [] = some [] ∧ snpsLoop [[]] 0 = snpsLoop [] 1) :=
  ⟨rfl, by decide, short_line_counted [] [] 0 rfl (by decide)⟩

/-- Claim C10: the decoder accepts signed allele indices: `-1/2` decodes to
`[-1, 2]` and a run containing that token succeeds. -/
theorem negative_alleles_accepted :
    parse_gt ['-', '1', '/', '2'] = some [-1, 2] ∧
    run [('c' :: (List.replicate 9 '\t' ++ ['-', '1', '/', '2']))] =
      some ("SNPs read 1") :=
  ⟨rfl, rfl⟩

/-! ### Claim C2: format errors -/

/-- Claim C2: the run raises a format error (and aborts) exactly when some
data line has a genotype piece that `int` rejects; inputs with no such piece
never raise a format error. -/
theorem format_error_iff_bad_piece (lines : List (List Char)) :
    run lines = none ↔
      ∃ line ∈ lines, startsWithHash line = false ∧
        ∃ gt ∈ sampleFields line, ∃ piece ∈ splitOnChar '/' gt,
          pyIntChars piece = none := by
  rw [run, Option.map_eq_none', snps_read, snpsLoop_eq_none_iff lines 0]
  simp only [processLine, parse_gt, omap_eq_none_iff]

/-! ### Claim C3: what `line.strip()` removes -/

theorem dropWhile_append_single (p : α → Bool) (c : α) (hc : p c = false)
    (A : List α) : (A ++ [c]).dropWhile p = A.dropWhile p ++ [c] := by
  induction A with
  | nil => simp [List.dropWhile_cons, hc]
  | cons a A ih =>
    by_cases ha : p a = true
    · simp [List.dropWhile_cons, ha, ih]
    · have ha' : p a = false := by simpa using ha
      simp [List.dropWhile_cons, ha']

theorem dropWhile_append_ne_nil (p : α → Bool) (A B : List α)
    (h : A.dropWhile p ≠ []) : (A ++ B).dropWhile p = A.dropWhile p ++ B := by
  induction A with
  | nil => simp [List.dropWhile_nil] at h
  | cons a A ih =>
    by_cases ha : p a = true
    · have h' : A.dropWhile p ≠ [] := by
        simpa [List.dropWhile_cons, ha] using h
      simp [List.dropWhile_cons, ha, ih h']
    · have ha' : p a = false := by simpa using ha
      simp [List.dropWhile_cons, ha']

theorem pyRstripOnly_cons_of_not_space (c : Char) (m : List Char)
    (hc : isPySpace c = false) : pyRstripOnly (c :: m) = c :: pyRstripOnly m := by
  unfold pyRstripOnly
  rw [List.reverse_cons, dropWhile_append_single isPySpace c hc,
    List.reverse_append]
  simp

theorem pyRstripOnly_cons_of_ne_nil (c : Char) (m : List Char)
    (hm : pyRstripOnly m ≠ []) : pyRstripOnly (c :: m) = c :: pyRstripOnly m := by
  have h : m.reverse.dropWhile isPySpace ≠ [] := by
    intro h
    exact hm (by simp [pyRstripOnly, h])
  unfold pyRstripOnly
  rw [List.reverse_cons, dropWhile_append_ne_nil isPySpace _ [c] h,
    List.reverse_append]
  simp

theorem pyRstripOnly_eq_nil_iff (l : List Char) :
    pyRstripOnly l = [] ↔ ∀ x ∈ l, isPySpace x = true := by
  unfold pyRstripOnly
  rw [List.reverse_eq_nil_iff, List.dropWhile_eq_nil_iff]
  simp [List.mem_reverse]

/-- Trimming leading whitespace commutes with trimming trailing whitespace. -/
theorem strip_comm (l : List Char) :
    pyRstripOnly (pyLstrip l) = pyLstrip (pyRstripOnly l) := by
  induction l with
  | nil => rfl
  | cons c l ih =>
    by_cases hc : isPySpace c = true
    · have hl : pyLstrip (c :: l) = pyLstrip l := by
        simp [pyLstrip, List.dropWhile_cons, hc]
      by_cases hr : pyRstripOnly l = []
      · have hall : ∀ x ∈ l, isPySpace x = true := (pyRstripOnly_eq_nil_iff l).mp hr
        have hall2 : ∀ x ∈ (c :: l), isPySpace x = true := by
          intro x hx
          rcases List.mem_cons.mp hx with rfl | hx
          · exact hc
          · exact hall x hx
        have h1 : pyRstripOnly (c :: l) = [] := (pyRstripOnly_eq_nil_iff _).mpr hall2
        have h2 : pyLstrip l = [] := by
          rw [pyLstrip, List.dropWhile_eq_nil_iff]
          exact hall
        rw [hl, h2, h1]
        rfl
      · have h1 : pyRstripOnly (c :: l) = c :: pyRstripOnly l :=
          pyRstripOnly_cons_of_ne_nil c l hr
        rw [hl, ih, h1]
        simp [pyLstrip, List.dropWhile_cons, hc]
    · have hc' : isPySpace c = false := by simpa using hc
      have hl : pyLstrip (c :: l) = c :: l := by
        simp [pyLstrip, List.dropWhile_cons, hc']
      have h1 : pyRstripOnly (c :: l) = c :: pyRstripOnly l :=
        pyRstripOnly_cons_of_not_space c l hc'
      rw [hl, h1]
      simp [pyLstrip, List.dropWhile_cons, hc']

/-- Claim C3 counterexample: leading characters are NOT preserved.  On the
line `"\ta"` the code's stripping differs from trailing-only stripping, the
resulting tab-split fields differ, and on a full-width line a leading tab
changes which fields count as sample columns. -/
theorem leading_whitespace_stripped_counterexample :
    pyStrip ['\t', 'a'] ≠ pyRstripOnly ['\t', 'a'] ∧
    splitOnChar '\t' (pyStrip ['\t', 'a']) ≠
      splitOnChar '\t' (pyRstripOnly ['\t', 'a']) ∧
    sampleFields ('\t' :: 'c' :: (List.replicate 9 '\t' ++ ['5'])) ≠
      (splitOnChar '\t'
        (pyRstripOnly ('\t' :: 'c' :: (List.replicate 9 '\t' ++ ['5'])))).drop 9 := by
  refine ⟨by decide, by decide, by decide⟩

/-- Claim C3 (amended): before tab-splitting, the code strips trailing AND
leading whitespace: the split input is the trailing-stripped line with its
leading whitespace additionally removed. -/
theorem strip_both_ends (line : List Char) :
    splitOnChar '\t' (pyStrip line) =
      splitOnChar '\t' (pyLstrip (pyRstripOnly line)) :=
  congrArg (splitOnChar '\t') (strip_comm line)

/-! ### Claim C4: arbitrary-ploidy genotype tokens -/

/-- Build the token `a1/a2/.../an` (`sep.join` of the pieces). -/
def joinSep (sep : Char) : List (List Char) → List Char
  | [] => []
  | [p] => p
  | p :: ps => p ++ sep :: joinSep sep ps

theorem splitOnChar_of_not_mem (sep : Char) (p : List Char) (h : sep ∉ p) :
    splitOnChar sep p = [p] := by
  induction p with
  | nil => rfl
  | cons a p ih =>
    have ha : ¬a = sep := by
      intro e
      exact h (e ▸ List.mem_cons_self a p)
    have h' : sep ∉ p := fun hm => h (List.mem_cons_of_mem _ hm)
    simp [splitOnChar, ha, ih h']

theorem splitOnChar_append_cons (sep : Char) (p rest : List Char) (h : sep ∉ p) :
    splitOnChar sep (p ++ sep :: rest) = p :: splitOnChar sep rest := by
  induction p with
  | nil => simp [splitOnChar]
  | cons a p ih =>
    have ha : ¬a = sep := by
      intro e
      exact h (e ▸ List.mem_cons_self a p)
    have h' : sep ∉ p := fun hm => h (List.mem_cons_of_mem _ hm)
    simp [splitOnChar, ha, ih h']

theorem splitOnChar_joinSep (sep : Char) (ps : List (List Char)) (hne : ps ≠ [])
    (h : ∀ p ∈ ps, sep ∉ p) : splitOnChar sep (joinSep sep ps) = ps := by
  induction ps with
  | nil => exact absurd rfl hne
  | cons p ps ih =>
    cases ps with
    | nil =>
      show splitOnChar sep (joinSep sep [p]) = [p]
      rw [joinSep]
      exact splitOnChar_of_not_mem sep p (h p (List.mem_cons_self _ _))
    | cons q qs =>
      have h1 : sep ∉ p := h p (List.mem_cons_self _ _)
      have h2 : ∀ r ∈ q :: qs, sep ∉ r := fun r hr => h r (List.mem_cons_of_mem _ hr)
      have hj : joinSep sep (p :: q :: qs) = p ++ sep :: joinSep sep (q :: qs) := rfl
      rw [hj, splitOnChar_append_cons sep p _ h1, ih (by simp) h2]

theorem digitsCore_eq_none_of_mem_slash (cs : List Char) (hcs : '/' ∈ cs) :
    ∀ acc us, digitsCore acc us cs = none := by
  induction cs with
  | nil => cases hcs
  | cons c rest ih =>
    intro acc us
    rcases List.mem_cons.mp hcs with e | h'
    · have hc : c = '/' := e.symm
      subst hc
      have h1 : ('/' : Char).isDigit = false := by decide
      have h2 : ¬('/' : Char) = '_' := by decide
      simp [digitsCore, h1, h2]
    · by_cases hd : c.isDigit = true
      · simp [digitsCore, hd, ih h']
      · have hd' : c.isDigit = false := by simpa using hd
        by_cases hu : c = '_'
        · subst hu
          cases us <;> simp [digitsCore, hd', ih h']
        · simp [digitsCore, hd', hu]

theorem parseDigits_eq_none_of_mem_slash (cs : List Char) (h : '/' ∈ cs) :
    parseDigits cs = none := by
  cases cs with
  | nil => cases h
  | cons c rest =>
    rcases List.mem_cons.mp h with e | h'
    · have hc : c = '/' := e.symm
      subst hc
      have h1 : ('/' : Char).isDigit = false := by decide
      simp [parseDigits, h1]
    · by_cases hd : c.isDigit = true
      · simp [parseDigits, hd, digitsCore_eq_none_of_mem_slash rest h']
      · have hd' : c.isDigit = false := by simpa using hd
        simp [parseDigits, hd']

theorem mem_dropWhile_of_neg (p : α → Bool) (a : α) (ha : p a = false) :
    ∀ l : List α, a ∈ l → a ∈ l.dropWhile p := by
  intro l
  induction l with
  | nil => intro h; cases h
  | cons b l ih =>
    intro h
    by_cases hb : p b = true
    · rcases List.mem_cons.mp h with rfl | h'
      · rw [hb] at ha; cases ha
      · rw [List.dropWhile_cons, if_pos hb]
        exact ih h'
    · have hb' : p b = false := by simpa using hb
      rw [List.dropWhile_cons, if_neg (by simp [hb'])]
      exact h

theorem mem_pyStrip (a : Char) (ha : isPySpace a = false) (cs : List Char)
    (h : a ∈ cs) : a ∈ pyStrip cs := by
  unfold pyStrip pyRstripOnly pyLstrip
  have h1 : a ∈ cs.dropWhile isPySpace := mem_dropWhile_of_neg _ a ha cs h
  have h2 : a ∈ (cs.dropWhile isPySpace).reverse := List.mem_reverse.mpr h1
  have h3 := mem_dropWhile_of_neg _ a ha _ h2
  exact List.mem_reverse.mpr h3

theorem pyIntChars_eq_none_of_slash (p : List Char) (h : '/' ∈ p) :
    pyIntChars p = none := by
  have h1 : '/' ∈ pyStrip p := mem_pyStrip '/' (by decide) p h
  unfold pyIntChars
  cases hs : pyStrip p with
  | nil => rfl
  | cons c rest =>
    rw [hs] at h1
    by_cases hp : c = '+'
    · subst hp
      have h2 : '/' ∈ rest := by
        rcases List.mem_cons.mp h1 with e | h2
        · exact absurd e (by decide)
        · exact h2
      simp [parseDigits_eq_none_of_mem_slash rest h2]
    · by_cases hm : c = '-'
      · subst hm
        have h2 : '/' ∈ rest := by
          rcases List.mem_cons.mp h1 with e | h2
          · exact absurd e (by decide)
          · exact h2
        simp [hp, parseDigits_eq_none_of_mem_slash rest h2]
      · simp [hp, hm, parseDigits_eq_none_of_mem_slash (c :: rest) h1]

theorem pyIntChars_isSome_no_slash (p : List Char)
    (h : (pyIntChars p).isSome = true) : '/' ∉ p := by
  intro hm
  rw [pyIntChars_eq_none_of_slash p hm] at h
  cases h

/-- Claim C4: a token `a1/a2/.../an` (any `n ≥ 1`) whose pieces are all valid
integers decodes, without raising, to exactly the ordered integer values of
its pieces; and the decoded values never influence the count — a successfully
parsed data line adds one regardless of what was decoded. -/
theorem parse_gt_valid_pieces (ps : List (List Char)) (hne : ps ≠ [])
    (hv : ∀ p ∈ ps, (pyIntChars p).isSome = true) :
    parse_gt (joinSep '/' ps) = omap pyIntChars ps ∧
    (parse_gt (joinSep '/' ps)).isSome = true ∧
    (∀ line rest acc vals, startsWithHash line = false →
      processLine line = some vals →
      snpsLoop (line :: rest) acc = snpsLoop rest (acc + 1)) := by
  have hsplit : splitOnChar '/' (joinSep '/' ps) = ps :=
    splitOnChar_joinSep '/' ps hne
      (fun p hp => pyIntChars_isSome_no_slash p (hv p hp))
  have h1 : parse_gt (joinSep '/' ps) = omap pyIntChars ps := by
    rw [parse_gt, hsplit]
  refine ⟨h1, ?_, ?_⟩
  · rw [h1]
    exact (omap_isSome_iff pyIntChars ps).mpr hv
  · intro line rest acc vals hh hp
    simp [snpsLoop, hh, hp]

theorem parse_gt_valid_pieces_witness :
    parse_gt (joinSep '/' [['1'], ['0']]) = omap pyIntChars [['1'], ['0']] ∧
    (parse_gt (joinSep '/' [['1'], ['0']])).isSome = true ∧
    snpsLoop [['a']] 0 = snpsLoop [] 1 :=
  have t := parse_gt_valid_pieces [['1'], ['0']] (by decide) (by decide)
  ⟨t.1, t.2.1, t.2.2 ['a'] [] 0 [] rfl rfl⟩

/-! ### Claim C8: permutation of sample columns -/

theorem option_bind_const (o : Option α) (k : Option β) :
    (o.bind fun _ => k) = if o.isSome = true then k else none := by
  cases o <;> simp

theorem processLine_isSome_congr (line lineP : List Char)
    (hperm : (sampleFields line).Perm (sampleFields lineP)) :
    (processLine line).isSome = (processLine lineP).isSome := by
  have h1 : (processLine line).isSome = true ↔ (processLine lineP).isSome = true := by
    simp only [processLine, omap_isSome_iff]
    exact ⟨fun h x hx => h x (hperm.mem_iff.mpr hx),
           fun h x hx => h x (hperm.mem_iff.mp hx)⟩
  cases hA : (processLine line).isSome <;>
    cases hB : (processLine lineP).isSome <;> simp_all

theorem snpsLoop_cons_congr (line lineP : List Char)
    (hclass : startsWithHash line = startsWithHash lineP)
    (hsome : (processLine line).isSome = (processLine lineP).isSome) :
    ∀ rest acc, snpsLoop (line :: rest) acc = snpsLoop (lineP :: rest) acc := by
  intro rest acc
  by_cases hb : startsWithHash line = true
  · have hb2 : startsWithHash lineP = true := hclass ▸ hb
    simp [snpsLoop, hb, hb2]
  · have hb' : startsWithHash line = false := by simpa using hb
    have hb2 : startsWithHash lineP = false := hclass ▸ hb'
    simp only [snpsLoop, hb', hb2, Bool.false_eq_true, if_false]
    rw [option_bind_const, option_bind_const, hsome]

theorem snpsLoop_append_congr (L1 L2 : List (List Char))
    (h : ∀ acc, snpsLoop L1 acc = snpsLoop L2 acc) :
    ∀ (pre : List (List Char)) (acc : Nat),
      snpsLoop (pre ++ L1) acc = snpsLoop (pre ++ L2) acc := by
  intro pre
  induction pre with
  | nil => intro acc; simpa using h acc
  | cons p pre ih =>
    intro acc
    by_cases hp : startsWithHash p = true
    · simp [snpsLoop, hp, ih]
    · have hp' : startsWithHash p = false := by simpa using hp
      cases ho : processLine p with
      | none => simp [snpsLoop, hp', ho]
      | some v => simp [snpsLoop, hp', ho, ih]

/-- Claim C8: permuting the sample columns (fields from index 9 on) of a data
line leaves the program's result unchanged, whatever surrounds the line. -/
theorem sample_column_perm_invariant (pre post : List (List Char))
    (line lineP : List Char)
    (h1 : startsWithHash line = false) (h2 : startsWithHash lineP = false)
    (hperm : (sampleFields line).Perm (sampleFields lineP)) :
    run (pre ++ line :: post) = run (pre ++ lineP :: post) := by
  have hsome := processLine_isSome_congr line lineP hperm
  have hcons := snpsLoop_cons_congr line lineP (h1.trans h2.symm) hsome
  have hmain := snpsLoop_append_congr (line :: post) (lineP :: post)
    (fun acc => hcons post acc) pre 0
  simp [run, snps_read, hmain]

theorem sample_column_perm_invariant_witness :
    startsWithHash ('c' :: (List.replicate 9 '\t' ++ ['1', '\t', '2'])) = false ∧
    (sampleFields ('c' :: (List.replicate 9 '\t' ++ ['1', '\t', '2']))).Perm
      (sampleFields ('c' :: (List.replicate 9 '\t' ++ ['2', '\t', '1']))) ∧
    run [['#'], ('c' :: (List.replicate 9 '\t' ++ ['1', '\t', '2'])), ['d']] =
      run [['#'], ('c' :: (List.replicate 9 '\t' ++ ['2', '\t', '1'])), ['d']] :=
  ⟨rfl, by decide,
   sample_column_perm_invariant [['#']] [['d']]
     ('c' :: (List.replicate 9 '\t' ++ ['1', '\t', '2']))
     ('c' :: (List.replicate 9 '\t' ++ ['2', '\t', '1']))
     rfl rfl (by decide)⟩
